import Mathlib

/-!
Verification of the chunking pipeline of `index_documents.py` (doc-embedding-indexer).

Strings are modelled as `List Char`; Python `int` as `Int` where overflow-free
arithmetic on arbitrary integers matters (loop counters of `chunk_fixed_size`),
`Nat` elsewhere.  Whitespace is modelled as the ASCII whitespace characters,
which is the common fragment of Python's `str.strip` and the regex class `\s`.
-/

namespace DocIndexer

/-- ASCII whitespace, the common core of Python `str.strip()` and regex `\s`. -/
def pyIsSpace (c : Char) : Bool :=
  c = ' ' || c = '\t' || c = '\n' || c = '\r' || c = '\x0b' || c = '\x0c'

/-- Python `str.strip()`: drop leading and trailing whitespace. -/
def pyStrip (s : List Char) : List Char :=
  ((s.dropWhile pyIsSpace).reverse.dropWhile pyIsSpace).reverse

/-- Clamp a Python slice index to an actual list position
(negative indices count from the end, out-of-range indices clamp). -/
def pyIndex (n : Nat) (i : Int) : Nat :=
  if i < 0 then ((n : Int) + i).toNat else min i.toNat n

/-- Python slice `s[a:b]`. -/
def pySlice (l : List Char) (a b : Int) : List Char :=
  (l.take (pyIndex l.length b)).drop (pyIndex l.length a)

/-- One step of the `while start < len(text)` loop of `chunk_fixed_size`,
with explicit fuel; `none` means the loop did not finish within `fuel`
iterations.  Mirrors the source:

    while start < len(text):
        end = start + chunk_size
        chunk = text[start:end]
        if chunk.strip():
            chunks.append(chunk.strip())
        start += chunk_size - overlap
-/
def chunkFixedSizeFuel (text : List Char) (chunk_size overlap : Int) :
    Int → Nat → Option (List (List Char))
  | _, 0 => none
  | start, fuel + 1 =>
    if start < (text.length : Int) then
      let chunk := pySlice text start (start + chunk_size)
      match chunkFixedSizeFuel text chunk_size overlap (start + (chunk_size - overlap)) fuel with
      | none => none
      | some rest => some (if pyStrip chunk = [] then rest else pyStrip chunk :: rest)
    else
      some []

/-- `chunk_fixed_size(text, chunk_size, overlap)`.  When the advance step is
positive the loop runs at most `len(text)` iterations, so `len(text) + 1`
units of fuel suffice; `none` marks a non-terminating parameter choice. -/
def chunk_fixed_size (text : List Char) (chunk_size overlap : Int) :
    Option (List (List Char)) :=
  chunkFixedSizeFuel text chunk_size overlap 0 (text.length + 1)

/-- Sentence-terminating punctuation from the regex class `[.!?]` of
`SENTENCE_SPLIT_PATTERN`. -/
def isSentEnd (c : Char) : Bool :=
  c = '.' || c = '!' || c = '?'

/-- Whether the most recently consumed character (head of the reversed
accumulator) is sentence-terminating punctuation: the lookbehind of the
pattern. -/
def headIsSentEnd : List Char → Bool
  | [] => false
  | c :: _ => isSentEnd c

/-- Left-to-right scan of `re.split(r'(?<=[.!?])\s+', text)`: a maximal
whitespace run whose preceding character is `.`, `!` or `?` ends the current
piece and is discarded; every other character is appended to the current
piece.  `acc` holds the current piece reversed. -/
def sentGo (acc : List Char) : List Char → List (List Char)
  | [] => [acc.reverse]
  | c :: rest =>
    if pyIsSpace c && headIsSentEnd acc then
      acc.reverse :: sentGo [] (rest.dropWhile pyIsSpace)
    else
      sentGo (c :: acc) rest
termination_by l => l.length
decreasing_by
  · simp only [List.length_cons]
    exact Nat.lt_succ_of_le (List.dropWhile_suffix pyIsSpace).length_le
  · simp

/-- `chunk_by_sentences(text)`:
`[s.strip() for s in re.split(r'(?<=[.!?])\s+', text) if s.strip()]`. -/
def chunk_by_sentences (text : List Char) : List (List Char) :=
  ((sentGo [] text).filter (fun s => !(pyStrip s).isEmpty)).map pyStrip

/-- Left-to-right scan of `re.split(r'\n\s*\n', text)`.  At a newline the
engine looks at the following whitespace run: if it contains another newline,
the match extends (greedily, then backtracking for the final `\n`) through the
last newline of that run and the current piece ends there; otherwise the
newline is an ordinary character of the current piece. -/
def paraGo (acc : List Char) : List Char → List (List Char)
  | [] => [acc.reverse]
  | c :: rest =>
    if c = '\n' then
      let run := rest.takeWhile pyIsSpace
      let consumed := (run.reverse.dropWhile (fun d => !(d = '\n'))).reverse
      if consumed.isEmpty then
        paraGo (c :: acc) rest
      else
        acc.reverse :: paraGo [] (rest.drop consumed.length)
    else
      paraGo (c :: acc) rest
termination_by l => l.length
decreasing_by
  · simp
  · simp only [List.length_cons]
    exact Nat.lt_succ_of_le (List.length_drop .. ▸ Nat.sub_le _ _)
  · simp

/-- `chunk_by_paragraphs(text)`:
`[p.strip() for p in re.split(r'\n\s*\n', text) if p.strip()]`. -/
def chunk_by_paragraphs (text : List Char) : List (List Char) :=
  ((paraGo [] text).filter (fun s => !(pyStrip s).isEmpty)).map pyStrip

/-- `chunk_text(text, strategy)`.  `Except.error` is the raised `ValueError`
for an unknown strategy; the inner `Option` carries nontermination of
`chunk_fixed_size` (which cannot occur at the default parameters 500/50). -/
def chunk_text (text : List Char) (strategy : String) :
    Except (List Char) (Option (List (List Char))) :=
  if strategy = "fixed" then .ok (chunk_fixed_size text 500 50)
  else if strategy = "sentence" then .ok (some (chunk_by_sentences text))
  else if strategy = "paragraph" then .ok (some (chunk_by_paragraphs text))
  else .error (("Unknown chunking strategy: " ++ strategy ++
    ". Use 'fixed', 'sentence', or 'paragraph'.").data)

/-- Final path component (`pathlib.PurePath.name`): everything after the last
`/`. -/
def pathName (p : List Char) : List Char :=
  (p.reverse.takeWhile (fun c => !(c = '/'))).reverse

/-- `pathlib.PurePath.suffix`: with `i = name.rfind('.')`, the slice `name[i:]`
if `0 < i < len(name) - 1`, else empty.  `k` is the number of characters
strictly after the last dot, so `i = len(name) - 1 - k`. -/
def pathSuffix (p : List Char) : List Char :=
  let name := pathName p
  let r := name.reverse
  let k := (r.takeWhile (fun c => !(c = '.'))).length
  if 0 < k ∧ k < name.length - 1 then (r.take (k + 1)).reverse else []

/-- `extract_text(file_path)`, with the PDF and DOCX page/paragraph readers
abstracted as the functions `pdfText` and `docxText` (external collaborators);
both branches return the raw text stripped, per
`extract_text_from_pdf` / `extract_text_from_docx`. -/
def extract_text (pdfText docxText : List Char → List Char) (file_path : List Char) :
    Except (List Char) (List Char) :=
  let file_ext := (pathSuffix file_path).map Char.toLower
  if file_ext = ".pdf".data then .ok (pyStrip (pdfText file_path))
  else if file_ext = ".docx".data then .ok (pyStrip (docxText file_path))
  else .error ("Unsupported file type: ".data ++ file_ext ++
    ". Only PDF and DOCX are supported.".data)

/-- The front of `main()` up to and including the chunking stage: the
file-existence guard, `extract_text`, the empty-text guard, then
`chunk_text`.  Embedding and persistence come after chunking and are
irrelevant to whether chunking is reached. -/
def pipelineChunks (pdfText docxText : List Char → List Char) (fileExists : Bool)
    (file_path : List Char) (strategy : String) :
    Except (List Char) (Option (List (List Char))) :=
  if !fileExists then .error ("File not found: ".data ++ file_path)
  else
    match extract_text pdfText docxText file_path with
    | .error e => .error e
    | .ok text =>
      if text.isEmpty then .error "No text extracted from the file".data
      else chunk_text text strategy

/-- The rows `store_chunks(chunks, embeddings, filename, strategy)` hands to
`execute_values`:

    data = [(chunk, embedding, filename, strategy)
            for chunk, embedding in zip(chunks, embeddings)]

The embedding payload type is abstract (`α`). -/
def store_chunks_data {α : Type} (chunks : List (List Char)) (embeddings : List α)
    (filename strategy : List Char) : List (List Char × α × List Char × List Char) :=
  (chunks.zip embeddings).map (fun ce => (ce.1, ce.2, filename, strategy))

/-! Basic facts about `pyStrip`. -/

theorem drop_length_takeWhile (p : Char → Bool) (l : List Char) :
    l.drop (l.takeWhile p).length = l.dropWhile p := by
  induction l with
  | nil => rfl
  | cons c t ih =>
    by_cases h : p c
    · simpa [List.takeWhile_cons, List.dropWhile_cons, h] using ih
    · simp [List.takeWhile_cons, List.dropWhile_cons, h]

theorem rstrip_eq_take (p : Char → Bool) (l : List Char) :
    (l.reverse.dropWhile p).reverse =
      l.take (l.length - (l.reverse.takeWhile p).length) := by
  have hk : (l.reverse.takeWhile p).length ≤ l.length := by
    have h1 := (@List.takeWhile_prefix Char l.reverse p).length_le
    simpa using h1
  rw [← drop_length_takeWhile p l.reverse]
  have h2 : (List.take (l.length - (l.reverse.takeWhile p).length) l).reverse =
      List.drop (l.reverse.takeWhile p).length l.reverse := by
    rw [List.reverse_take]
    congr 1
    omega
  calc (l.reverse.drop (l.reverse.takeWhile p).length).reverse
      = ((l.take (l.length - (l.reverse.takeWhile p).length)).reverse).reverse := by rw [h2]
    _ = l.take (l.length - (l.reverse.takeWhile p).length) := List.reverse_reverse _

/-- `pyStrip` is a `take` of a `drop`: it removes a whitespace-prefix of
length `(l.takeWhile pyIsSpace).length` and then truncates. -/
theorem pyStrip_eq_take_drop (l : List Char) :
    ∃ k, pyStrip l = (l.drop (l.takeWhile pyIsSpace).length).take k := by
  refine ⟨(l.dropWhile pyIsSpace).length -
    ((l.dropWhile pyIsSpace).reverse.takeWhile pyIsSpace).length, ?_⟩
  rw [pyStrip, rstrip_eq_take, drop_length_takeWhile]

theorem pyStrip_sublength (l : List Char) : (pyStrip l).length ≤ l.length := by
  obtain ⟨k, hk⟩ := pyStrip_eq_take_drop l
  rw [hk]
  calc ((l.drop (l.takeWhile pyIsSpace).length).take k).length
      ≤ (l.drop (l.takeWhile pyIsSpace).length).length := (List.length_take ..).trans_le (by omega)
    _ ≤ l.length := by simp

theorem pyStrip_subset (l : List Char) : ∀ c ∈ pyStrip l, c ∈ l := by
  intro c hc
  obtain ⟨k, hk⟩ := pyStrip_eq_take_drop l
  rw [hk] at hc
  exact List.drop_subset _ l (List.take_subset _ _ hc)

theorem pyStrip_of_all_space (l : List Char) (h : ∀ c ∈ l, pyIsSpace c = true) :
    pyStrip l = [] := by
  rw [pyStrip, List.dropWhile_eq_nil_iff.2 h]
  rfl

theorem dropWhile_head_not (p : Char → Bool) (l : List Char) :
    ∀ c, (l.dropWhile p).head? = some c → p c = false := by
  induction l with
  | nil => intro c hc; simp at hc
  | cons a t ih =>
    intro c hc
    by_cases h : p a
    · rw [List.dropWhile_cons_of_pos h] at hc
      exact ih c hc
    · rw [List.dropWhile_cons_of_neg h] at hc
      simp at hc
      subst hc
      simpa using h

theorem dropWhile_eq_self_of_head (p : Char → Bool) (l : List Char)
    (h : ∀ c, l.head? = some c → p c = false) : l.dropWhile p = l := by
  cases l with
  | nil => rfl
  | cons a t =>
    have := h a rfl
    simp [List.dropWhile_cons, this]

theorem pyStrip_head_not_space (l : List Char) :
    ∀ c, (pyStrip l).head? = some c → pyIsSpace c = false := by
  intro c hc
  obtain ⟨k, hk⟩ := pyStrip_eq_take_drop l
  rw [drop_length_takeWhile] at hk
  have hne : pyStrip l ≠ [] := by intro h; rw [h] at hc; simp at hc
  have hhd : (l.dropWhile pyIsSpace).head? = some c := by
    rw [hk] at hc
    cases hdw : l.dropWhile pyIsSpace with
    | nil => rw [hdw] at hc; simp at hc
    | cons a t =>
      rw [hdw] at hc
      cases k with
      | zero => simp at hc
      | succ k => simp at hc ⊢; exact hc
  exact dropWhile_head_not pyIsSpace l c hhd

theorem pyStrip_getLast_not_space (l : List Char) :
    ∀ c, (pyStrip l).getLast? = some c → pyIsSpace c = false := by
  intro c hc
  rw [pyStrip] at hc
  rw [List.getLast?_reverse] at hc
  exact dropWhile_head_not pyIsSpace (l.dropWhile pyIsSpace).reverse c hc

theorem pyStrip_idem (l : List Char) : pyStrip (pyStrip l) = pyStrip l := by
  rw [pyStrip]
  rw [dropWhile_eq_self_of_head pyIsSpace (pyStrip l) (pyStrip_head_not_space l)]
  rw [dropWhile_eq_self_of_head pyIsSpace (pyStrip l).reverse]
  · exact List.reverse_reverse _
  · intro c hc
    rw [List.head?_reverse] at hc
    exact pyStrip_getLast_not_space l c hc

/-! Fixed-size chunking with valid parameters (`0 <= overlap < chunk_size`):
the loop terminates and equals a window/trim/filter description. -/

/-- The `chunk_fixed_size` loop as a total function on `Nat` state, for a
positive advance step (`max 1 step` is `step` whenever `1 ≤ step`). -/
def fixedLoop (text : List Char) (S step start : Nat) : List (List Char) :=
  if start < text.length then
    let c := pyStrip ((text.drop start).take S)
    let rest := fixedLoop text S step (start + max 1 step)
    if c.isEmpty then rest else c :: rest
  else []
termination_by text.length - start
decreasing_by
  have h1 : 1 ≤ max 1 step := Nat.le_max_left 1 step
  omega

/-- The window start offsets visited by the loop. -/
def startsFrom (len step start : Nat) : List Nat :=
  if start < len then start :: startsFrom len step (start + max 1 step) else []
termination_by len - start
decreasing_by
  have h1 : 1 ≤ max 1 step := Nat.le_max_left 1 step
  omega

/-- A Python slice with non-negative `Nat` bounds `[start, start + S)` is a
`drop` followed by a `take`. -/
theorem pySlice_eq_take_drop (text : List Char) (start S : Nat) :
    pySlice text (start : Int) ((start : Int) + (S : Int)) = (text.drop start).take S := by
  have h1 : pyIndex text.length (start : Int) = min start text.length := by
    rw [pyIndex, if_neg (by omega)]
    simp
  have h2 : pyIndex text.length ((start : Int) + (S : Int)) = min (start + S) text.length := by
    rw [pyIndex, if_neg (by omega)]
    have h3 : ((start : Int) + (S : Int)).toNat = start + S := by omega
    rw [h3]
  rw [pySlice, h1, h2]
  rcases le_or_lt text.length start with h | h
  · have hL : (text.take (min (start + S) text.length)).length ≤ min start text.length := by
      simp
      omega
    rw [List.drop_of_length_le hL, List.drop_of_length_le h, List.take_nil]
  · have hmin : min start text.length = start := by omega
    rw [hmin, List.take_drop]
    congr 1
    rw [List.take_eq_take]
    omega

/-- One unfolding of the fuelled loop. -/
theorem chunkFixedSizeFuel_succ (text : List Char) (S O start : Int) (fuel : Nat) :
    chunkFixedSizeFuel text S O start (fuel + 1) =
      if start < (text.length : Int) then
        match chunkFixedSizeFuel text S O (start + (S - O)) fuel with
        | none => none
        | some rest =>
          some (if pyStrip (pySlice text start (start + S)) = [] then rest
            else pyStrip (pySlice text start (start + S)) :: rest)
      else some [] := rfl

/-- With a positive advance step and enough fuel, the fuelled loop computes
`fixedLoop`. -/
theorem chunkFixedSizeFuel_eq_fixedLoop (text : List Char) (S O : Nat) (hSO : O < S) :
    ∀ (fuel start : Nat), text.length ≤ start + fuel →
      chunkFixedSizeFuel text (S : Int) (O : Int) (start : Int) (fuel + 1) =
        some (fixedLoop text S (S - O) start) := by
  intro fuel
  induction fuel with
  | zero =>
    intro start hstart
    have hge : ¬ ((start : Int) < (text.length : Int)) := by omega
    rw [fixedLoop, if_neg (by omega)]
    simp only [chunkFixedSizeFuel, if_neg hge]
  | succ fuel ih =>
    intro start hstart
    rcases le_or_lt text.length start with h | h
    · have hge : ¬ ((start : Int) < (text.length : Int)) := by omega
      rw [fixedLoop, if_neg (by omega)]
      simp only [chunkFixedSizeFuel, if_neg hge]
    · have hlt : (start : Int) < (text.length : Int) := by omega
      have hcast : (start : Int) + ((S : Int) - (O : Int)) = ((start + (S - O) : Nat) : Int) := by
        push_cast [Nat.cast_sub hSO.le]
        ring
      have hrec := ih (start + (S - O)) (by omega)
      have hmax : max 1 (S - O) = S - O := Nat.max_eq_right (by omega)
      rw [fixedLoop, if_pos h, hmax]
      rw [chunkFixedSizeFuel_succ, if_pos hlt, hcast, hrec, pySlice_eq_take_drop]
      by_cases hc : pyStrip ((text.drop start).take S) = []
      · simp [hc, List.isEmpty_iff]
      · simp [hc, List.isEmpty_iff]

/-- `chunk_fixed_size` with valid `Nat` parameters terminates within its
fuel and computes `fixedLoop` from offset `0`. -/
theorem chunk_fixed_size_valid (text : List Char) (S O : Nat) (hSO : O < S) :
    chunk_fixed_size text (S : Int) (O : Int) = some (fixedLoop text S (S - O) 0) := by
  have h := chunkFixedSizeFuel_eq_fixedLoop text S O hSO text.length 0 (by omega)
  simpa [chunk_fixed_size] using h

/-- `fixedLoop` maps the visited window starts through slice-and-trim and
keeps the non-empty results. -/
theorem fixedLoop_eq_map_filter (text : List Char) (S step : Nat) :
    ∀ (n start : Nat), text.length - start ≤ n →
      fixedLoop text S step start =
        ((startsFrom text.length step start).map
          (fun st => pyStrip ((text.drop st).take S))).filter (fun c => !c.isEmpty) := by
  intro n
  induction n with
  | zero =>
    intro start hstart
    rw [fixedLoop, if_neg (by omega), startsFrom, if_neg (by omega)]
    rfl
  | succ n ih =>
    intro start hstart
    rcases le_or_lt text.length start with h | h
    · rw [fixedLoop, if_neg (by omega), startsFrom, if_neg (by omega)]
      rfl
    · have h1 : 1 ≤ max 1 step := Nat.le_max_left 1 step
      rw [fixedLoop, if_pos h, startsFrom, if_pos h]
      rw [List.map_cons, List.filter_cons, ih (start + max 1 step) (by omega)]
      by_cases hc : pyStrip ((text.drop start).take S) = []
      · simp [hc]
      · simp [hc, List.isEmpty_iff]

/-- The visited starts are `0, step, 2*step, ...` below `len`: an arithmetic
range of `ceil((len - start) / step)` offsets. -/
theorem startsFrom_eq_range' (len step : Nat) (hstep : 0 < step) :
    ∀ (n start : Nat), len - start ≤ n →
      startsFrom len step start = List.range' start ((len - start + step - 1) / step) step := by
  intro n
  induction n with
  | zero =>
    intro start hstart
    have hz : (len - start + step - 1) / step = 0 := Nat.div_eq_of_lt (by omega)
    rw [startsFrom, if_neg (by omega), hz]
    rfl
  | succ n ih =>
    intro start hstart
    rcases le_or_lt len start with h | h
    · have hz : (len - start + step - 1) / step = 0 := Nat.div_eq_of_lt (by omega)
      rw [startsFrom, if_neg (by omega), hz]
      rfl
    · have hmax : max 1 step = step := Nat.max_eq_right hstep
      have hcount : (len - start + step - 1) / step = ((len - start - 1) / step) + 1 := by
        have he : len - start + step - 1 = (len - start - 1) + step := by omega
        rw [he, Nat.add_div_right _ hstep]
      have hchild : (len - (start + step) + step - 1) / step = (len - start - 1) / step := by
        rcases le_or_lt step (len - start) with hss | hss
        · have he : len - (start + step) + step - 1 = len - start - 1 := by omega
          rw [he]
        · have he : len - (start + step) = 0 := by omega
          rw [he, Nat.div_eq_of_lt (by omega), Nat.div_eq_of_lt (by omega)]
      rw [startsFrom, if_pos h, hmax, ih (start + step) (by omega), hchild, hcount,
        List.range'_succ]

/-- Specification-level description of fixed-size chunking for
`0 <= O < S`: window starts step from `0` by `S - O` while below the text
length; each window `[st, st + S)` is trimmed; empty results are dropped. -/
def fixedWindowsSpec (text : List Char) (S O : Nat) : List (List Char) :=
  ((List.range' 0 ((text.length + (S - O) - 1) / (S - O)) (S - O)).map
    (fun st => pyStrip ((text.drop st).take S))).filter (fun c => !c.isEmpty)

/-- Core fixed-size correctness, shared by several claims. -/
theorem chunk_fixed_size_spec (text : List Char) (S O : Nat) (hSO : O < S) :
    chunk_fixed_size text (S : Int) (O : Int) = some (fixedWindowsSpec text S O) := by
  rw [chunk_fixed_size_valid text S O hSO,
    fixedLoop_eq_map_filter text S (S - O) text.length 0 (by omega),
    startsFrom_eq_range' text.length (S - O) (by omega) text.length 0 (by omega),
    fixedWindowsSpec]
  simp

/-! Claim C1: behaviour of `chunk_fixed_size` on malformed parameters.
The source contains no validation; with `overlap >= chunk_size` and a
non-empty text the advance step is `<= 0` and the loop never terminates,
so no error and no result is ever produced. -/

/-- Claim C1 (code bug): with `overlap >= chunk_size` and non-empty text,
the `chunk_fixed_size` loop makes no progress: for every fuel bound the loop
is still running (`none`), i.e. the code loops forever instead of rejecting
the malformed parameters at entry with an error. -/
theorem claim_C1 :
    (∀ (text : List Char) (chunk_size overlap : Int), chunk_size ≤ overlap →
      text ≠ [] → ∀ (fuel : Nat) (start : Int), start ≤ 0 →
      chunkFixedSizeFuel text chunk_size overlap start fuel = none) ∧
    (∀ (text : List Char) (chunk_size overlap : Int), chunk_size ≤ overlap →
      text ≠ [] → chunk_fixed_size text chunk_size overlap = none) := by
  have main : ∀ (text : List Char) (chunk_size overlap : Int), chunk_size ≤ overlap →
      text ≠ [] → ∀ (fuel : Nat) (start : Int), start ≤ 0 →
      chunkFixedSizeFuel text chunk_size overlap start fuel = none := by
    intro text S O hSO htext fuel
    induction fuel with
    | zero => intro start _; rfl
    | succ fuel ih =>
      intro start hstart
      have hlen : 0 < text.length := List.length_pos.2 htext
      have hlt : start < (text.length : Int) := by
        have : (1 : Int) ≤ (text.length : Int) := by exact_mod_cast hlen
        omega
      have hrec := ih (start + (S - O)) (by omega)
      simp only [chunkFixedSizeFuel, if_pos hlt, hrec]
  exact ⟨main, fun text S O hSO htext => main text S O hSO htext (text.length + 1) 0 le_rfl⟩

/-- Claim C1 witness: a one-character text with `chunk_size = overlap = 500`
never finishes, in particular not within the default fuel. -/
theorem claim_C1_witness :
    chunkFixedSizeFuel ['a'] 500 500 0 5 = none ∧
    chunk_fixed_size ['a'] 500 500 = none :=
  ⟨claim_C1.1 ['a'] 500 500 (by norm_num) (by simp) 5 0 le_rfl,
   claim_C1.2 ['a'] 500 500 (by norm_num) (by simp)⟩

/-- Claim C3: for `0 <= overlap < chunk_size`, `chunk_fixed_size` returns
exactly the non-empty trimmed windows `[start, start + S)` with `start`
stepping from `0` by `S - O` while `start < len(text)` (the final partial
window included); in particular 1000 characters with `S = 500`, `O = 50`
give 3 chunks of lengths 500, 500, 100 at offsets 0, 450, 900. -/
theorem claim_C3 :
    (∀ (text : List Char) (S O : Nat), O < S →
      chunk_fixed_size text (S : Int) (O : Int) = some (fixedWindowsSpec text S O)) ∧
    chunk_fixed_size (List.replicate 1000 'a') 500 50 =
      some [List.replicate 500 'a', List.replicate 500 'a', List.replicate 100 'a'] := by
  constructor
  · intro text S O hSO
    exact chunk_fixed_size_spec text S O hSO
  · set_option maxRecDepth 10000 in rfl

/-- Claim C3 witness at a small concrete input. -/
theorem claim_C3_witness :
    (1 : Nat) < 3 ∧
    chunk_fixed_size "abcde".data (3 : Nat) (1 : Nat) = some (fixedWindowsSpec "abcde".data 3 1) :=
  ⟨by norm_num, claim_C3.1 "abcde".data 3 1 (by norm_num)⟩

/-- Claim C9: for `0 <= overlap < chunk_size` every chunk returned by
`chunk_fixed_size` has length at most `chunk_size` (a window has at most
`S` characters and trimming never lengthens). -/
theorem claim_C9 : ∀ (text : List Char) (S O : Nat), O < S →
    ∃ chunks, chunk_fixed_size text (S : Int) (O : Int) = some chunks ∧
      ∀ c ∈ chunks, c.length ≤ S := by
  intro text S O hSO
  refine ⟨fixedWindowsSpec text S O, chunk_fixed_size_spec text S O hSO, ?_⟩
  intro c hc
  rw [fixedWindowsSpec] at hc
  have hc2 := List.mem_of_mem_filter hc
  obtain ⟨st, _, hst⟩ := List.mem_map.1 hc2
  rw [← hst]
  calc (pyStrip ((text.drop st).take S)).length
      ≤ ((text.drop st).take S).length := pyStrip_sublength _
    _ ≤ S := by simp

/-- Claim C9 witness at a small concrete input. -/
theorem claim_C9_witness :
    (1 : Nat) < 3 ∧ ∃ chunks, chunk_fixed_size "abcde".data (3 : Nat) (1 : Nat) = some chunks ∧
      ∀ c ∈ chunks, c.length ≤ 3 :=
  ⟨by norm_num, claim_C9 "abcde".data 3 1 (by norm_num)⟩

/-! Claim C2: the source of `store_chunks` contains no length check; `zip`
silently truncates to the shorter of the two sequences. -/

/-- Claim C2 counterexample: with 2 chunks and 1 embedding (a mismatch),
`store_chunks` still builds a non-empty row list and proceeds to the bulk
insert — the mismatch is silently accommodated, not checked and not
prevented. -/
theorem claim_C2_counterexample :
    ["ab".data, "cd".data].length ≠ [([1] : List Int)].length ∧
    store_chunks_data ["ab".data, "cd".data] [([1] : List Int)] "f.pdf".data "fixed".data =
      [("ab".data, ([1] : List Int), "f.pdf".data, "fixed".data)] := by
  exact ⟨by decide, rfl⟩

/-- Claim C2 (amended): `store_chunks` performs no precondition check; it
writes exactly one row per position of `zip(chunks, embeddings)` — that is,
`min(len(chunks), len(embeddings))` rows, pairing chunks and embeddings
positionally and dropping the unmatched tail of the longer sequence. -/
theorem claim_C2 : ∀ {α : Type} (chunks : List (List Char)) (embeddings : List α)
    (filename strategy : List Char),
    (store_chunks_data chunks embeddings filename strategy).length =
      min chunks.length embeddings.length ∧
    (store_chunks_data chunks embeddings filename strategy).map (fun r => (r.1, r.2.1)) =
      chunks.zip embeddings := by
  intro α chunks emb f s
  constructor
  · simp [store_chunks_data]
  · simp only [store_chunks_data, List.map_map]
    exact List.map_id _

/-! Claims C8 and C10: extension dispatch in `extract_text`. -/

/-- Unsupported-extension branch of `extract_text`, shared helper. -/
theorem extract_text_unsupported (pdfText docxText : List Char → List Char) (p : List Char)
    (h1 : (pathSuffix p).map Char.toLower ≠ ".pdf".data)
    (h2 : (pathSuffix p).map Char.toLower ≠ ".docx".data) :
    extract_text pdfText docxText p =
      .error ("Unsupported file type: ".data ++ (pathSuffix p).map Char.toLower ++
        ". Only PDF and DOCX are supported.".data) := by
  simp only [extract_text]
  rw [if_neg h1, if_neg h2]

/-- Claim C8: a path whose (lowercased) extension is neither `.pdf` nor
`.docx` makes `extract_text` fail with an unsupported-file-type error whose
message contains the extension, and the pipeline stops with that error
before the chunking stage. -/
theorem claim_C8 : ∀ (pdfText docxText : List Char → List Char) (p : List Char)
    (strategy : String),
    (pathSuffix p).map Char.toLower ≠ ".pdf".data →
    (pathSuffix p).map Char.toLower ≠ ".docx".data →
    ∃ msg, extract_text pdfText docxText p = .error msg ∧
      (∃ pre post, msg = pre ++ (pathSuffix p).map Char.toLower ++ post) ∧
      pipelineChunks pdfText docxText true p strategy = .error msg := by
  intro f g p strategy h1 h2
  refine ⟨"Unsupported file type: ".data ++ (pathSuffix p).map Char.toLower ++
    ". Only PDF and DOCX are supported.".data, extract_text_unsupported f g p h1 h2, ?_, ?_⟩
  · exact ⟨"Unsupported file type: ".data, ". Only PDF and DOCX are supported.".data, rfl⟩
  · simp only [pipelineChunks, extract_text_unsupported f g p h1 h2]
    rfl

/-- Claim C8 witness: a `.txt` path fails before chunking, for every
strategy choice; shown here for the default. -/
theorem claim_C8_witness :
    (pathSuffix "doc.txt".data).map Char.toLower ≠ ".pdf".data ∧
    ∃ msg, extract_text (fun _ => "P".data) (fun _ => "D".data) "doc.txt".data = .error msg ∧
      (∃ pre post, msg = pre ++ (pathSuffix "doc.txt".data).map Char.toLower ++ post) ∧
      pipelineChunks (fun _ => "P".data) (fun _ => "D".data) true "doc.txt".data "fixed" =
        .error msg :=
  ⟨by decide, claim_C8 (fun _ => "P".data) (fun _ => "D".data) "doc.txt".data "fixed"
    (by decide) (by decide)⟩

/-- Claim C10: dispatch is case-insensitive — the suffix is lowercased
before comparison, so any case variant of `.pdf` (such as `.PDF`) reaches
the PDF reader and any variant of `.docx` (such as `.Docx`) the DOCX
reader, and the unsupported-type error reports the lowercased extension. -/
theorem claim_C10 :
    (∀ (pdfText docxText : List Char → List Char) (p : List Char),
      (pathSuffix p).map Char.toLower = ".pdf".data →
      extract_text pdfText docxText p = .ok (pyStrip (pdfText p))) ∧
    (∀ (pdfText docxText : List Char → List Char) (p : List Char),
      (pathSuffix p).map Char.toLower = ".docx".data →
      extract_text pdfText docxText p = .ok (pyStrip (docxText p))) ∧
    (∀ (pdfText docxText : List Char → List Char) (p : List Char),
      (pathSuffix p).map Char.toLower ≠ ".pdf".data →
      (pathSuffix p).map Char.toLower ≠ ".docx".data →
      extract_text pdfText docxText p =
        .error ("Unsupported file type: ".data ++ (pathSuffix p).map Char.toLower ++
          ". Only PDF and DOCX are supported.".data)) ∧
    pathSuffix "report.PDF".data = ".PDF".data ∧
    ".PDF".data.map Char.toLower = ".pdf".data ∧
    pathSuffix "notes.Docx".data = ".Docx".data ∧
    ".Docx".data.map Char.toLower = ".docx".data := by
  refine ⟨?_, ?_, fun f g p h1 h2 => extract_text_unsupported f g p h1 h2,
    by decide, by decide, by decide, by decide⟩
  · intro f g p h
    simp only [extract_text]
    rw [if_pos h]
  · intro f g p h
    have hne : (pathSuffix p).map Char.toLower ≠ ".pdf".data := by
      rw [h]
      decide
    simp only [extract_text]
    rw [if_neg hne, if_pos h]

/-- Claim C10 witness: an uppercase `.PDF` path is dispatched to the PDF
reader. -/
theorem claim_C10_witness :
    extract_text (fun _ => "hello".data) (fun _ => "D".data) "report.PDF".data =
      .ok (pyStrip "hello".data) :=
  claim_C10.1 (fun _ => "hello".data) (fun _ => "D".data) "report.PDF".data (by decide)

/-! Sentence splitting: a declarative decomposition of the input into
pieces and separators, and the proof that `sentGo` realises it. -/

/-- Interleave separator/piece pairs: `joinTail [(w1,p1),(w2,p2)] = w1 ++ p1 ++ w2 ++ p2`. -/
def joinTail : List (List Char × List Char) → List Char
  | [] => []
  | (w, piece) :: tl => w ++ piece ++ joinTail tl

/-- No sentence split point between two adjacent characters: not
(terminal punctuation followed by whitespace). -/
def pairOK (a b : Char) : Prop := isSentEnd a = false ∨ pyIsSpace b = false

/-- Conditions tying each separator/piece pair of a sentence decomposition
to the piece before it: the separator is a non-empty whitespace run whose
preceding piece ends with terminal punctuation; the following piece has no
internal split point and starts with non-whitespace (separator maximality);
only the final piece may be empty. -/
def sentTailOK : List Char → List (List Char × List Char) → Prop
  | _, [] => True
  | prev, (w, piece) :: tl =>
      w ≠ [] ∧ (∀ c ∈ w, pyIsSpace c = true) ∧
      (∃ c, prev.getLast? = some c ∧ isSentEnd c = true) ∧
      List.Chain' pairOK piece ∧
      (∀ c, piece.head? = some c → pyIsSpace c = false) ∧
      (piece = [] → tl = []) ∧
      sentTailOK piece tl

theorem sentGo_spec : ∀ (n : Nat) (rest acc : List Char), rest.length ≤ n →
    List.Chain' pairOK acc.reverse →
    ∃ p tl, sentGo acc rest = p :: tl.map Prod.snd ∧
      acc.reverse ++ rest = p ++ joinTail tl ∧
      List.Chain' pairOK p ∧
      (p = [] → tl = [] ∧ acc = []) ∧
      sentTailOK p tl := by
  intro n
  induction n with
  | zero =>
    intro rest acc hlen hacc
    have hrest : rest = [] := List.length_eq_zero.1 (Nat.le_zero.1 hlen)
    subst hrest
    refine ⟨acc.reverse, [], by rw [sentGo]; simp, by simp [joinTail], hacc, ?_, trivial⟩
    intro hp
    exact ⟨rfl, by simpa using hp⟩
  | succ n ih =>
    intro rest acc hlen hacc
    cases rest with
    | nil =>
      refine ⟨acc.reverse, [], by rw [sentGo]; simp, by simp [joinTail], hacc, ?_, trivial⟩
      intro hp
      exact ⟨rfl, by simpa using hp⟩
    | cons c r =>
      by_cases hsplit : pyIsSpace c && headIsSentEnd acc
      · -- a split: the current piece ends, the whitespace run is consumed
        obtain ⟨hws, hend⟩ := Bool.and_eq_true_iff.1 hsplit
        have haccne : acc ≠ [] := by
          intro h
          rw [h] at hend
          simp [headIsSentEnd] at hend
        obtain ⟨a, acctl, hacceq⟩ := List.exists_cons_of_ne_nil haccne
        have hlen2 : (r.dropWhile pyIsSpace).length ≤ n := by
          have h1 := (@List.dropWhile_suffix Char r pyIsSpace).length_le
          simp at hlen
          omega
        obtain ⟨p₁, tl₁, hgo₁, hjoin₁, hchain₁, hnil₁, hok₁⟩ :=
          ih (r.dropWhile pyIsSpace) [] hlen2 List.chain'_nil
        refine ⟨acc.reverse, (c :: r.takeWhile pyIsSpace, p₁) :: tl₁, ?_, ?_, hacc, ?_, ?_⟩
        · rw [sentGo, if_pos hsplit, hgo₁]
          rfl
        · rw [joinTail]
          have hsplit2 : c :: r = (c :: r.takeWhile pyIsSpace) ++ r.dropWhile pyIsSpace := by
            rw [List.cons_append, List.takeWhile_append_dropWhile]
          rw [hsplit2]
          simp only [List.reverse_nil, List.nil_append] at hjoin₁
          rw [hjoin₁]
          simp
        · intro hp
          exact absurd (by simpa using hp) haccne
        · rw [sentTailOK]
          refine ⟨by simp, ?_, ?_, hchain₁, ?_, fun h => (hnil₁ h).1, hok₁⟩
          · intro d hd
            rcases List.mem_cons.1 hd with h | h
            · rw [h]
              exact hws
            · exact List.mem_takeWhile_imp h
          · refine ⟨a, ?_, ?_⟩
            · rw [hacceq, List.getLast?_reverse]
              rfl
            · simpa [hacceq, headIsSentEnd] using hend
          · intro d hd
            have hhd : (r.dropWhile pyIsSpace).head? = some d := by
              simp only [List.reverse_nil, List.nil_append] at hjoin₁
              rw [hjoin₁]
              cases hp₁ : p₁ with
              | nil => rw [hp₁] at hd; simp at hd
              | cons x xs =>
                rw [hp₁] at hd
                rw [List.cons_append]
                simpa using hd
            exact dropWhile_head_not pyIsSpace r d hhd
      · -- no split: the character joins the current piece
        have hchain2 : List.Chain' pairOK (c :: acc).reverse := by
          rw [List.reverse_cons]
          rw [List.chain'_append]
          refine ⟨hacc, List.chain'_singleton c, ?_⟩
          intro x hx y hy
          simp at hy
          subst hy
          rw [List.getLast?_reverse] at hx
          cases acc with
          | nil => simp at hx
          | cons a t =>
            obtain rfl : a = x := by simpa using hx
            rw [pairOK]
            have hs2 : ¬(pyIsSpace c = true ∧ isSentEnd a = true) := by
              intro hcon
              exact hsplit (by simp [headIsSentEnd, hcon.1, hcon.2])
            rcases Bool.eq_false_or_eq_true (isSentEnd a) with h | h
            · rcases Bool.eq_false_or_eq_true (pyIsSpace c) with h2 | h2
              · exact absurd ⟨h2, h⟩ hs2
              · exact Or.inr h2
            · exact Or.inl h
        have hlen2 : r.length ≤ n := by
          simp at hlen
          omega
        obtain ⟨p, tl, hgo, hjoin, hchain, hnil, hok⟩ := ih r (c :: acc) hlen2 hchain2
        refine ⟨p, tl, ?_, ?_, hchain, ?_, hok⟩
        · rw [sentGo, if_neg hsplit, hgo]
        · rw [← hjoin, List.reverse_cons]
          simp
        · intro hp
          obtain ⟨h1, h2⟩ := hnil hp
          exact absurd h2 (List.cons_ne_nil c acc)

/-- Claim C5: the sentence strategy splits exactly at each whitespace run
immediately preceded by `.`, `!` or `?`.  Every text decomposes as
`p₀ ++ w₁ ++ p₁ ++ ...` where each separator `wᵢ` is a non-empty whitespace
run whose preceding piece ends with terminal punctuation (punctuation stays
attached), no piece contains an internal split point (`Chain' pairOK`), and
each separator is maximal (the following piece starts with non-whitespace);
the output is the pieces trimmed, with empty ones dropped.  In particular
`"Hello world. How are you? Fine!"` gives exactly 3 chunks. -/
theorem claim_C5 :
    (∀ text : List Char, ∃ p tl,
      sentGo [] text = p :: tl.map Prod.snd ∧
      text = p ++ joinTail tl ∧
      List.Chain' pairOK p ∧
      sentTailOK p tl ∧
      chunk_by_sentences text =
        ((p :: tl.map Prod.snd).filter (fun s => !(pyStrip s).isEmpty)).map pyStrip) ∧
    chunk_by_sentences "Hello world. How are you? Fine!".data =
      ["Hello world.".data, "How are you?".data, "Fine!".data] := by
  constructor
  · intro text
    obtain ⟨p, tl, hgo, hjoin, hchain, _, hok⟩ :=
      sentGo_spec text.length text [] le_rfl List.chain'_nil
    refine ⟨p, tl, hgo, by simpa using hjoin, hchain, hok, ?_⟩
    rw [chunk_by_sentences, hgo]
  · simp [chunk_by_sentences, sentGo, pyIsSpace, isSentEnd, headIsSentEnd, pyStrip]

/-- Claim C7 counterexample: a whitespace-only text (here a single space)
contains no terminal punctuation, yet the sentence strategy returns zero
chunks, not one chunk equal to the whole trimmed text. -/
theorem claim_C7_counterexample :
    (∀ c ∈ [' '], isSentEnd c = false) ∧
    chunk_by_sentences [' '] = [] ∧
    (chunk_by_sentences [' ']).length ≠ 1 := by
  refine ⟨by decide, ?_, ?_⟩ <;>
    simp [chunk_by_sentences, sentGo, pyIsSpace, isSentEnd, headIsSentEnd, pyStrip]

/-- The scan never splits when neither the accumulator nor the remaining
input contains terminal punctuation. -/
theorem sentGo_no_sentEnd : ∀ (rest acc : List Char),
    (∀ c ∈ acc, isSentEnd c = false) → (∀ c ∈ rest, isSentEnd c = false) →
    sentGo acc rest = [acc.reverse ++ rest] := by
  intro rest
  induction rest with
  | nil =>
    intro acc _ _
    rw [sentGo]
    simp
  | cons c r ih =>
    intro acc hacc hrest
    have hcond : ¬(pyIsSpace c && headIsSentEnd acc) = true := by
      cases acc with
      | nil => simp [headIsSentEnd]
      | cons a t =>
        have := hacc a (by simp)
        simp [headIsSentEnd, this]
    rw [sentGo, if_neg hcond, ih (c :: acc) ?_ ?_]
    · simp
    · intro d hd
      rcases List.mem_cons.1 hd with h | h
      · rw [h]
        exact hrest c (by simp)
      · exact hacc d h
    · intro d hd
      exact hrest d (List.mem_cons_of_mem c hd)

/-- Claim C7 (amended): every text that contains no terminal punctuation
and does not trim to empty yields exactly one chunk, the whole trimmed
text.  (A whitespace-only or empty text yields zero chunks instead.) -/
theorem claim_C7 : ∀ text : List Char, pyStrip text ≠ [] →
    (∀ c ∈ text, isSentEnd c = false) →
    chunk_by_sentences text = [pyStrip text] := by
  intro text hne hnoend
  rw [chunk_by_sentences, sentGo_no_sentEnd text [] (by simp) hnoend]
  simp [List.isEmpty_iff, hne]

/-- Claim C7 witness at the spec's example input. -/
theorem claim_C7_witness :
    pyStrip "no punctuation here".data ≠ [] ∧
    (∀ c ∈ "no punctuation here".data, isSentEnd c = false) ∧
    chunk_by_sentences "no punctuation here".data = [pyStrip "no punctuation here".data] :=
  ⟨by decide, by decide,
    claim_C7 "no punctuation here".data (by decide) (by decide)⟩

/-! Paragraph splitting: declarative decomposition and its realisation by
`paraGo`. -/

/-- No blank-line pattern inside a piece: the piece contains no two
newlines separated only by whitespace (no match of `\n\s*\n`). -/
def noPara (p : List Char) : Prop :=
  ∀ l mid r, p = l ++ '\n' :: (mid ++ '\n' :: r) → ¬ (∀ c ∈ mid, pyIsSpace c = true)

theorem noPara_nil : noPara [] := by
  intro l mid r h _
  have := congrArg List.length h
  simp at this
  omega

/-- Elements of an all-`q` prefix lie in the `takeWhile q` run. -/
theorem prefix_all_mem_takeWhile (q : Char → Bool) (s l : List Char)
    (hpre : s <+: l) (hall : ∀ x ∈ s, q x = true) : ∀ x ∈ s, x ∈ l.takeWhile q := by
  obtain ⟨t, rfl⟩ := hpre
  intro x hx
  rw [List.takeWhile_append]
  have hs : s.takeWhile q = s := List.takeWhile_eq_self_iff.2 hall
  rw [if_pos (by rw [hs])]
  exact List.mem_append_left _ hx

/-- `takeWhile` of a prefix is contained in `takeWhile` of the list. -/
theorem mem_takeWhile_of_prefix (q : Char → Bool) (p l : List Char)
    (h : p <+: l) : ∀ x ∈ p.takeWhile q, x ∈ l.takeWhile q := by
  obtain ⟨t, rfl⟩ := h
  intro x hx
  rw [List.takeWhile_append]
  by_cases hc : (p.takeWhile q).length = p.length
  · rw [if_pos hc]
    exact List.mem_append_left _ (( List.takeWhile_prefix q).sublist.subset hx)
  · rw [if_neg hc]
    exact hx

/-- Appending a non-newline character cannot create a blank-line pattern. -/
theorem noPara_snoc (l : List Char) (c : Char) (hl : noPara l) (hc : c ≠ '\n') :
    noPara (l ++ [c]) := by
  intro l' mid r heq hmid
  rcases List.eq_nil_or_concat r with hr | ⟨r', b, hr⟩
  · subst hr
    have hlast : (l ++ [c]).getLast? = some c := List.getLast?_concat _
    rw [heq] at hlast
    have heq2 : l' ++ '\n' :: (mid ++ ['\n']) = (l' ++ '\n' :: mid) ++ ['\n'] := by simp
    rw [heq2, List.getLast?_concat] at hlast
    exact hc (Option.some_injective _ hlast).symm
  · subst hr
    have hcc : l.concat c = (l' ++ '\n' :: (mid ++ '\n' :: r')).concat b := by
      simp only [List.concat_eq_append]
      rw [heq]
      simp
    obtain ⟨h1, _⟩ := List.concat_inj.1 hcc
    exact hl l' mid r' h1 hmid

/-- Appending a newline to a piece whose trailing whitespace contains no
newline cannot create a blank-line pattern either.  (`acc` is the piece
reversed, so its trailing whitespace is `acc.takeWhile pyIsSpace`.) -/
theorem noPara_snoc_newline (acc : List Char) (hnp : noPara acc.reverse)
    (hA : ∀ c ∈ acc.takeWhile pyIsSpace, c ≠ '\n') :
    noPara (acc.reverse ++ ['\n']) := by
  intro l' mid r heq hmid
  rcases List.eq_nil_or_concat r with hr | ⟨r', b, hr⟩
  · subst hr
    have hcc : acc.reverse.concat '\n' = (l' ++ '\n' :: mid).concat '\n' := by
      simp only [List.concat_eq_append]
      rw [heq]
      simp
    have h1 : acc.reverse = l' ++ '\n' :: mid := (List.concat_inj.1 hcc).1
    have hacc : acc = mid.reverse ++ '\n' :: l'.reverse := by
      have h2 := congrArg List.reverse h1
      simpa using h2
    have hpre : (mid.reverse ++ ['\n']) <+: acc := by
      rw [hacc]
      exact ⟨l'.reverse, by simp⟩
    have hallws : ∀ x ∈ mid.reverse ++ ['\n'], pyIsSpace x = true := by
      intro x hx
      rcases List.mem_append.1 hx with h | h
      · exact hmid x (List.mem_reverse.1 h)
      · simp at h
        rw [h]
        rfl
    have hmem : '\n' ∈ acc.takeWhile pyIsSpace :=
      prefix_all_mem_takeWhile pyIsSpace _ acc hpre hallws '\n' (by simp)
    exact hA '\n' hmem rfl
  · subst hr
    have hcc : acc.reverse.concat '\n' = (l' ++ '\n' :: (mid ++ '\n' :: r')).concat b := by
      simp only [List.concat_eq_append]
      rw [heq]
      simp
    obtain ⟨h1, _⟩ := List.concat_inj.1 hcc
    exact hnp l' mid r' h1 hmid

/-- Leading whitespace run of `rest.dropWhile pyIsSpace` is empty. -/
theorem takeWhile_dropWhile_nil (rest : List Char) :
    (rest.dropWhile pyIsSpace).takeWhile pyIsSpace = [] := by
  cases hr : rest.dropWhile pyIsSpace with
  | nil => rfl
  | cons a t =>
    have ha := dropWhile_head_not pyIsSpace rest a (by rw [hr]; rfl)
    rw [List.takeWhile_cons, ha]
    rfl

/-- Conditions tying each separator/piece pair of a paragraph decomposition
to the piece before it: the separator is a whitespace run of length at least
2 that starts and ends with a newline; the preceding piece has no newline in
its trailing whitespace and the following piece none in its leading
whitespace (match maximality and leftmost-match), and the following piece
contains no blank-line pattern. -/
def paraTailOK : List Char → List (List Char × List Char) → Prop
  | _, [] => True
  | prev, (w, piece) :: tl =>
      2 ≤ w.length ∧ w.head? = some '\n' ∧ w.getLast? = some '\n' ∧
      (∀ c ∈ w, pyIsSpace c = true) ∧
      (∀ c ∈ prev.reverse.takeWhile pyIsSpace, c ≠ '\n') ∧
      (∀ c ∈ piece.takeWhile pyIsSpace, c ≠ '\n') ∧
      noPara piece ∧
      paraTailOK piece tl

theorem paraGo_spec : ∀ (n : Nat) (rest acc : List Char), rest.length ≤ n →
    noPara acc.reverse →
    ((∀ c ∈ acc.takeWhile pyIsSpace, c ≠ '\n') ∨
      (∀ c ∈ rest.takeWhile pyIsSpace, c ≠ '\n')) →
    ∃ p tl, paraGo acc rest = p :: tl.map Prod.snd ∧
      acc.reverse ++ rest = p ++ joinTail tl ∧
      noPara p ∧
      paraTailOK p tl := by
  intro n
  induction n with
  | zero =>
    intro rest acc hlen hnp _
    have hrest : rest = [] := List.length_eq_zero.1 (Nat.le_zero.1 hlen)
    subst hrest
    exact ⟨acc.reverse, [], by rw [paraGo]; simp, by simp [joinTail], hnp, trivial⟩
  | succ n ih =>
    intro rest acc hlen hnp hinv
    cases rest with
    | nil =>
      exact ⟨acc.reverse, [], by rw [paraGo]; simp, by simp [joinTail], hnp, trivial⟩
    | cons c r =>
      by_cases hcnl : c = '\n'
      · subst hcnl
        -- the scanner looks ahead into the whitespace run after this newline
        set run := r.takeWhile pyIsSpace with hrun
        set consumed := (run.reverse.dropWhile (fun d => !(d = '\n'))).reverse with hconsumed
        set tailWs := (run.reverse.takeWhile (fun d => !(d = '\n'))).reverse with htailWs
        have hsplitrun : run = consumed ++ tailWs := by
          rw [hconsumed, htailWs, ← List.reverse_append, List.takeWhile_append_dropWhile,
            List.reverse_reverse]
        have hA : ∀ c ∈ acc.takeWhile pyIsSpace, c ≠ '\n' := by
          rcases hinv with h | h
          · exact h
          · exfalso
            have hmem : '\n' ∈ ('\n' :: r).takeWhile pyIsSpace := by
              rw [List.takeWhile_cons, show pyIsSpace '\n' = true by decide]
              exact List.mem_cons_self _ _
            exact h '\n' hmem rfl
        by_cases hc : consumed.isEmpty
        · -- no second newline in the run: the newline joins the current piece
          have hcnil : consumed = [] := List.isEmpty_iff.1 hc
          have hrunnl : ∀ x ∈ run, x ≠ '\n' := by
            have hdw : run.reverse.dropWhile (fun d => !(d = '\n')) = [] := by
              have h2 := congrArg List.reverse hcnil
              rwa [hconsumed, List.reverse_reverse, List.reverse_nil] at h2
            intro x hx
            have := List.dropWhile_eq_nil_iff.1 hdw x (List.mem_reverse.2 hx)
            simpa using this
          have hnp2 : noPara ('\n' :: acc).reverse := by
            rw [List.reverse_cons]
            exact noPara_snoc_newline acc hnp hA
          have hinv2 : (∀ x ∈ ('\n' :: acc).takeWhile pyIsSpace, x ≠ '\n') ∨
              (∀ x ∈ r.takeWhile pyIsSpace, x ≠ '\n') := Or.inr hrunnl
          obtain ⟨p, tl, hgo, hjoin, hnpp, hok⟩ :=
            ih r ('\n' :: acc) (by simp at hlen; omega) hnp2 hinv2
          refine ⟨p, tl, ?_, ?_, hnpp, hok⟩
          · rw [paraGo, if_pos rfl]
            simp only [← hrun, ← hconsumed]
            rw [if_pos hc, hgo]
          · rw [← hjoin, List.reverse_cons]
            simp
        · -- a split: consume through the last newline of the run
          have hcnil : consumed ≠ [] := by
            intro h
            rw [h] at hc
            simp at hc
          have hle : consumed.length ≤ r.length := by
            have h1 : consumed.length ≤ run.length := by
              rw [hsplitrun]
              simp
            have h2 : run.length ≤ r.length := by
              rw [hrun]
              exact (@List.takeWhile_prefix Char r pyIsSpace).length_le
            omega
          have hrdecomp : r = consumed ++ (tailWs ++ r.dropWhile pyIsSpace) := by
            conv_lhs => rw [← List.takeWhile_append_dropWhile pyIsSpace r]
            rw [← hrun, hsplitrun]
            simp
          have hdrop : r.drop consumed.length = tailWs ++ r.dropWhile pyIsSpace := by
            conv_lhs => rw [hrdecomp]
            rw [List.drop_append_eq_append_drop]
            simp
          have hrunws : ∀ x ∈ run, pyIsSpace x = true := by
            intro x hx
            rw [hrun] at hx
            exact List.mem_takeWhile_imp hx
          have htailnl : ∀ x ∈ tailWs, x ≠ '\n' := by
            intro x hx
            rw [htailWs] at hx
            have := List.mem_takeWhile_imp (List.mem_reverse.1 hx)
            simpa using this
          have htailws : ∀ x ∈ tailWs, pyIsSpace x = true := by
            intro x hx
            refine hrunws x ?_
            rw [hsplitrun]
            exact List.mem_append_right _ hx
          have hrest2tw : (tailWs ++ r.dropWhile pyIsSpace).takeWhile pyIsSpace = tailWs := by
            rw [List.takeWhile_append]
            rw [if_pos (by rw [List.takeWhile_eq_self_iff.2 htailws])]
            rw [takeWhile_dropWhile_nil, List.append_nil]
          have hinv2 : (∀ x ∈ ([] : List Char).takeWhile pyIsSpace, x ≠ '\n') ∨
              (∀ x ∈ (r.drop consumed.length).takeWhile pyIsSpace, x ≠ '\n') := by
            left
            intro x hx
            simp at hx
          obtain ⟨p₁, tl₁, hgo₁, hjoin₁, hnpp₁, hok₁⟩ :=
            ih (r.drop consumed.length) [] (by simp at hlen ⊢; omega) noPara_nil hinv2
          simp only [List.reverse_nil, List.nil_append] at hjoin₁
          refine ⟨acc.reverse, ('\n' :: consumed, p₁) :: tl₁, ?_, ?_, hnp, ?_⟩
          · rw [paraGo, if_pos rfl]
            simp only [← hrun, ← hconsumed]
            rw [if_neg (by rw [List.isEmpty_iff]; exact hcnil), hgo₁]
            rfl
          · rw [joinTail]
            have hr2 : '\n' :: r = ('\n' :: consumed) ++ r.drop consumed.length := by
              rw [List.cons_append]
              congr 1
              conv_lhs => rw [hrdecomp]
              rw [hdrop]
            rw [hr2, hjoin₁]
            simp
          · rw [paraTailOK]
            have hconslast : consumed.getLast? = some '\n' := by
              rw [hconsumed, List.getLast?_reverse]
              cases hd : run.reverse.dropWhile (fun d => !(d = '\n')) with
              | nil =>
                exfalso
                apply hcnil
                rw [hconsumed, hd]
                rfl
              | cons a t =>
                have ha := dropWhile_head_not (fun d => !(d = '\n')) run.reverse a
                  (by rw [hd]; rfl)
                simp at ha
                rw [ha]
                rfl
            have hconsmem : ∀ x ∈ consumed, pyIsSpace x = true := by
              intro x hx
              refine hrunws x ?_
              rw [hsplitrun]
              exact List.mem_append_left _ hx
            refine ⟨?_, rfl, ?_, ?_, ?_, ?_, hnpp₁, hok₁⟩
            · cases hcons : consumed with
              | nil => exact absurd hcons hcnil
              | cons a t => simp
            · cases hcons : consumed with
              | nil => exact absurd hcons hcnil
              | cons a t =>
                rw [List.getLast?_cons_cons]
                rw [← hcons, ← hconslast, hcons]
            · intro x hx
              rcases List.mem_cons.1 hx with h | h
              · rw [h]
                rfl
              · exact hconsmem x h
            · intro x hx
              rw [List.reverse_reverse] at hx
              exact hA x hx
            · intro x hx
              refine htailnl x ?_
              have hpre : p₁ <+: (r.drop consumed.length) := ⟨joinTail tl₁, hjoin₁.symm⟩
              have hx2 := mem_takeWhile_of_prefix pyIsSpace p₁ _ hpre x hx
              rw [hdrop, hrest2tw] at hx2
              exact hx2
      · -- an ordinary character joins the current piece
        have hnp2 : noPara (c :: acc).reverse := by
          rw [List.reverse_cons]
          exact noPara_snoc acc.reverse c hnp hcnl
        have hinv2 : (∀ x ∈ (c :: acc).takeWhile pyIsSpace, x ≠ '\n') ∨
            (∀ x ∈ r.takeWhile pyIsSpace, x ≠ '\n') := by
          by_cases hws : pyIsSpace c
          · rcases hinv with h | h
            · left
              intro x hx
              rw [List.takeWhile_cons, hws] at hx
              rcases List.mem_cons.1 hx with h2 | h2
              · rw [h2]
                exact hcnl
              · exact h x h2
            · right
              intro x hx
              refine h x ?_
              rw [List.takeWhile_cons, hws]
              exact List.mem_cons_of_mem c hx
          · left
            intro x hx
            rw [List.takeWhile_cons] at hx
            rw [Bool.eq_false_iff.2 hws] at hx
            simp at hx
        obtain ⟨p, tl, hgo, hjoin, hnpp, hok⟩ :=
          ih r (c :: acc) (by simp at hlen; omega) hnp2 hinv2
        refine ⟨p, tl, ?_, ?_, hnpp, hok⟩
        · rw [paraGo, if_neg hcnl, hgo]
        · rw [← hjoin, List.reverse_cons]
          simp

/-- Claim C6: the paragraph strategy splits at every blank-line run.  Every
text decomposes as `p₀ ++ w₁ ++ p₁ ++ ...` where each separator `wᵢ` is a
whitespace run of length at least 2 beginning and ending with a newline (so
it contains at least one empty line), no piece contains a blank-line
pattern (`noPara`, so consecutive blank-line runs collapse into one
separator), the whitespace adjacent to a separator contains no further
newline (match maximality), and the output is the pieces trimmed with empty
pieces dropped.  In particular `"Para one.\n\nPara two.\n\n\nPara three."`
yields exactly the 3 trimmed paragraph chunks. -/
theorem claim_C6 :
    (∀ text : List Char, ∃ p tl,
      paraGo [] text = p :: tl.map Prod.snd ∧
      text = p ++ joinTail tl ∧
      noPara p ∧
      paraTailOK p tl ∧
      chunk_by_paragraphs text =
        ((p :: tl.map Prod.snd).filter (fun s => !(pyStrip s).isEmpty)).map pyStrip) ∧
    chunk_by_paragraphs "Para one.\n\nPara two.\n\n\nPara three.".data =
      ["Para one.".data, "Para two.".data, "Para three.".data] := by
  constructor
  · intro text
    obtain ⟨p, tl, hgo, hjoin, hnpp, hok⟩ :=
      paraGo_spec text.length text [] le_rfl noPara_nil (Or.inl (by simp))
    refine ⟨p, tl, hgo, by simpa using hjoin, hnpp, hok, ?_⟩
    rw [chunk_by_paragraphs, hgo]
  · simp [chunk_by_paragraphs, paraGo, pyIsSpace, pyStrip]

/-! Order preservation: every chunk occurs in the source text at an offset,
and the offsets are monotone along the output sequence. -/

/-- `c` occurs in `text` as the contiguous segment starting at offset `o`. -/
def occursAt (text c : List Char) (o : Nat) : Prop :=
  (text.drop o).take c.length = c

/-- The output preserves left-to-right textual order: the chunks occur in
the text at monotonically non-decreasing offsets. -/
def orderedOccs (text : List Char) (chunks : List (List Char)) : Prop :=
  ∃ offs : List Nat, List.Chain' (fun a b => a ≤ b) offs ∧
    List.Forall₂ (fun c off => occursAt text c off) chunks offs

theorem occursAt_of_append (text pre p suf : List Char) (h : text = pre ++ p ++ suf) :
    occursAt text p pre.length := by
  rw [occursAt, h, List.append_assoc, List.drop_left]
  exact List.take_left p suf

theorem occursAt_of_prefix (text q r : List Char) (o : Nat)
    (hocc : occursAt text r o) (hpre : q <+: r) : occursAt text q o := by
  have hq : q = r.take q.length := List.prefix_iff_eq_take.1 hpre
  have hlen : q.length ≤ r.length := hpre.length_le
  rw [occursAt] at hocc ⊢
  conv_rhs => rw [hq, ← hocc]
  rw [List.take_take]
  congr 1
  omega

theorem occursAt_drop (text p : List Char) (o j : Nat) (hocc : occursAt text p o) :
    occursAt text (p.drop j) (o + j) := by
  rw [occursAt] at hocc ⊢
  rw [← List.drop_drop, List.length_drop]
  rcases le_or_lt j p.length with h | h
  · rw [List.take_drop]
    have hj : j + (p.length - j) = p.length := by omega
    rw [hj, hocc]
  · rw [Nat.sub_eq_zero_of_le h.le, List.take_zero]
    exact (List.drop_eq_nil_iff.2 h.le).symm

/-- A trimmed piece occurs right after the piece's leading whitespace. -/
theorem occursAt_strip (text p : List Char) (o : Nat) (hocc : occursAt text p o) :
    occursAt text (pyStrip p) (o + (p.takeWhile pyIsSpace).length) := by
  obtain ⟨k, hk⟩ := pyStrip_eq_take_drop p
  have hdrop := occursAt_drop text p o (p.takeWhile pyIsSpace).length hocc
  refine occursAt_of_prefix text _ _ _ hdrop ?_
  rw [hk]
  exact List.take_prefix k _

/-- Consecutive segments of `text`, starting at offset `o`, each separated
from the next by a gap. -/
inductive SegsAt (text : List Char) : Nat → List (List Char) → Prop where
  | nil (o : Nat) : SegsAt text o []
  | cons (o gap : Nat) (p : List Char) (ps : List (List Char)) :
      occursAt text p o → SegsAt text (o + p.length + gap) ps → SegsAt text o (p :: ps)

/-- A piece/separator decomposition of the text places the pieces at
consecutive offsets. -/
theorem join_segsAt (text : List Char) :
    ∀ (tl : List (List Char × List Char)) (p₀ pre : List Char),
    text = pre ++ p₀ ++ joinTail tl →
    SegsAt text pre.length (p₀ :: tl.map Prod.snd) := by
  intro tl
  induction tl with
  | nil =>
    intro p₀ pre h
    rw [joinTail, List.append_nil] at h
    refine SegsAt.cons _ 0 _ _ (occursAt_of_append text pre p₀ [] (by rw [h]; simp)) ?_
    exact SegsAt.nil _
  | cons wp tl ih =>
    intro p₀ pre h
    obtain ⟨w, piece⟩ := wp
    rw [joinTail] at h
    refine SegsAt.cons _ w.length _ _
      (occursAt_of_append text pre p₀ (w ++ piece ++ joinTail tl) h) ?_
    have h2 : text = (pre ++ p₀ ++ w) ++ piece ++ joinTail tl := by
      rw [h]
      simp
    have h3 := ih piece (pre ++ p₀ ++ w) h2
    simpa [Nat.add_assoc] using h3

/-- Segments at consecutive offsets, trimmed and filtered, occur at
monotone offsets (each at least the segment-list origin). -/
theorem segs_ordered (text : List Char) :
    ∀ {o : Nat} {ps : List (List Char)}, SegsAt text o ps →
    ∃ offs : List Nat, List.Chain' (fun a b => a ≤ b) offs ∧
      (∀ x ∈ offs, o ≤ x) ∧
      List.Forall₂ (fun c off => occursAt text c off)
        ((ps.filter (fun s => !(pyStrip s).isEmpty)).map pyStrip) offs := by
  intro o ps h
  induction h with
  | nil o => exact ⟨[], List.chain'_nil, by simp, by simp⟩
  | cons o gap p ps hocc hrest ih =>
    obtain ⟨offs, hchain, hbound, hf2⟩ := ih
    by_cases hp : (pyStrip p).isEmpty
    · refine ⟨offs, hchain, ?_, ?_⟩
      · intro x hx
        have := hbound x hx
        omega
      · rw [List.filter_cons, if_neg (by simp [hp])]
        exact hf2
    · have hlp : (p.takeWhile pyIsSpace).length ≤ p.length :=
        (@List.takeWhile_prefix Char p pyIsSpace).length_le
      refine ⟨(o + (p.takeWhile pyIsSpace).length) :: offs, ?_, ?_, ?_⟩
      · rw [List.chain'_cons']
        refine ⟨?_, hchain⟩
        intro y hy
        have := hbound y (List.mem_of_mem_head? hy)
        omega
      · intro x hx
        rcases List.mem_cons.1 hx with h | h
        · omega
        · have := hbound x h
          omega
      · rw [List.filter_cons, if_pos (by simp [hp]), List.map_cons]
        exact List.Forall₂.cons (occursAt_strip text p o hocc) hf2

/-- Segments of an all-whitespace text consist of whitespace. -/
theorem segs_all_space (text : List Char) (hws : ∀ c ∈ text, pyIsSpace c = true) :
    ∀ {o : Nat} {ps : List (List Char)}, SegsAt text o ps →
    ∀ p ∈ ps, ∀ c ∈ p, pyIsSpace c = true := by
  intro o ps h
  induction h with
  | nil o => simp
  | cons o gap p ps hocc hrest ih =>
    intro q hq c hc
    rcases List.mem_cons.1 hq with hh | hh
    · subst hh
      rw [occursAt] at hocc
      rw [← hocc] at hc
      exact hws c (List.mem_of_mem_drop (List.mem_of_mem_take hc))
    · exact ih q hh c hc

/-- Elements of a trim-and-filter output are non-empty and already
trimmed. -/
theorem strip_filter_elems (ps : List (List Char)) :
    ∀ c ∈ (ps.filter (fun s => !(pyStrip s).isEmpty)).map pyStrip,
      pyStrip c ≠ [] ∧ c ≠ [] := by
  intro c hc
  obtain ⟨s, hs, hmap⟩ := List.mem_map.1 hc
  have hkeep := List.of_mem_filter hs
  have hne : pyStrip s ≠ [] := by simpa [List.isEmpty_iff] using hkeep
  rw [← hmap]
  exact ⟨by rw [pyStrip_idem]; exact hne, hne⟩

/-- An all-whitespace piece list trims and filters to nothing. -/
theorem strip_filter_all_space (ps : List (List Char))
    (h : ∀ p ∈ ps, ∀ c ∈ p, pyIsSpace c = true) :
    (ps.filter (fun s => !(pyStrip s).isEmpty)).map pyStrip = [] := by
  have hnil : ps.filter (fun s => !(pyStrip s).isEmpty) = [] := by
    rw [List.filter_eq_nil_iff]
    intro a ha
    rw [pyStrip_of_all_space a (h a ha)]
    simp
  rw [hnil]
  rfl

theorem drop_take_eq (l : List Char) (N j : Nat) :
    (l.take N).drop j = (l.drop j).take (N - j) := by
  rcases le_or_lt j N with h | h
  · have hN : N = j + (N - j) := by omega
    conv_lhs => rw [hN]
    rw [← List.take_drop]
  · rw [Nat.sub_eq_zero_of_le h.le, List.take_zero]
    rw [List.drop_eq_nil_iff]
    calc (l.take N).length ≤ N := by simp
      _ ≤ j := h.le

theorem head?_take (l : List Char) (n : Nat) (h : 1 ≤ n) :
    (l.take n).head? = l.head? := by
  cases l with
  | nil => simp
  | cons a t =>
    cases n with
    | zero => omega
    | succ m => simp

/-- Key monotonicity fact for overlapping fixed-size windows: if the windows
at `st <= st'` both survive trimming, the trimmed chunk of the earlier
window starts no later in the text than that of the later window. -/
theorem strip_offset_mono (text : List Char) (S st st' : Nat) (hle : st ≤ st')
    (_h1 : pyStrip ((text.drop st).take S) ≠ [])
    (h2 : pyStrip ((text.drop st').take S) ≠ []) :
    st + (((text.drop st).take S).takeWhile pyIsSpace).length ≤
      st' + (((text.drop st').take S).takeWhile pyIsSpace).length := by
  by_contra hcon
  push_neg at hcon
  set w := (text.drop st).take S with hw
  set w' := (text.drop st').take S with hw'
  set l1 := (w.takeWhile pyIsSpace).length with hl1
  set l2 := (w'.takeWhile pyIsSpace).length with hl2
  have hl1le : l1 ≤ w.length := (@List.takeWhile_prefix Char w pyIsSpace).length_le
  have hwS : w.length ≤ S := by rw [hw]; simp
  have hw'S : w'.length ≤ S := by rw [hw']; simp
  have hl2lt : l2 < w'.length := by
    have hdw : w'.dropWhile pyIsSpace ≠ [] := by
      intro hnil
      apply h2
      rw [pyStrip, hnil, List.reverse_nil]
      rfl
    rw [← drop_length_takeWhile pyIsSpace w', ← hl2] at hdw
    by_contra hge
    push_neg at hge
    exact hdw (List.drop_eq_nil_iff.2 hge)
  -- the first non-whitespace character of the later window is at st' + l2
  have hc2 : ∃ ch, (text.drop (st' + l2)).head? = some ch ∧ pyIsSpace ch = false := by
    obtain ⟨ch, cht, hch⟩ : ∃ a t, w'.dropWhile pyIsSpace = a :: t := by
      cases hd : w'.dropWhile pyIsSpace with
      | nil =>
        exfalso
        rw [← drop_length_takeWhile pyIsSpace w', ← hl2] at hd
        have := List.drop_eq_nil_iff.1 hd
        omega
      | cons a t => exact ⟨a, t, rfl⟩
    refine ⟨ch, ?_, dropWhile_head_not pyIsSpace w' ch (by rw [hch]; rfl)⟩
    have e1 : w'.drop l2 = ch :: cht := by
      rw [← drop_length_takeWhile pyIsSpace w', ← hl2] at hch
      exact hch
    have e2 : w'.drop l2 = (text.drop (st' + l2)).take (S - l2) := by
      rw [hw', drop_take_eq, List.drop_drop]
    have e3 := head?_take (text.drop (st' + l2)) (S - l2) (by omega)
    rw [← e3, ← e2, e1]
    rfl
  -- but that position lies inside the earlier window's leading whitespace
  have hcws : ∀ ch, (text.drop (st' + l2)).head? = some ch → pyIsSpace ch = true := by
    intro ch hch
    have hjl1 : st' + l2 - st < l1 := by omega
    have hstj : st + (st' + l2 - st) = st' + l2 := by omega
    have hjlen : st' + l2 - st < w.length := lt_of_lt_of_le hjl1 hl1le
    have e2 : w.drop (st' + l2 - st) = (text.drop (st' + l2)).take (S - (st' + l2 - st)) := by
      rw [hw, drop_take_eq, List.drop_drop, hstj]
    have e4 : w.drop (st' + l2 - st) =
        ((w.takeWhile pyIsSpace).drop (st' + l2 - st)) ++ w.dropWhile pyIsSpace := by
      conv_lhs => rw [← List.takeWhile_append_dropWhile pyIsSpace w]
      rw [List.drop_append_eq_append_drop]
      have hz : st' + l2 - st - (w.takeWhile pyIsSpace).length = 0 := by omega
      rw [hz, List.drop_zero]
    obtain ⟨ch2, t2, hch2⟩ : ∃ a t, (w.takeWhile pyIsSpace).drop (st' + l2 - st) = a :: t := by
      cases hd : (w.takeWhile pyIsSpace).drop (st' + l2 - st) with
      | nil =>
        exfalso
        have := List.drop_eq_nil_iff.1 hd
        omega
      | cons a t => exact ⟨a, t, rfl⟩
    have hmem : ch2 ∈ w.takeWhile pyIsSpace :=
      List.mem_of_mem_drop (by rw [hch2]; exact List.mem_cons_self _ _)
    have hwsch2 : pyIsSpace ch2 = true := List.mem_takeWhile_imp hmem
    have e5 : (text.drop (st' + l2)).head? = some ch2 := by
      have e6 := head?_take (text.drop (st' + l2)) (S - (st' + l2 - st)) (by omega)
      rw [← e6, ← e2, e4, hch2]
      rfl
    rw [hch] at e5
    obtain rfl : ch = ch2 := Option.some_injective _ e5
    exact hwsch2
  obtain ⟨ch, hch, hchf⟩ := hc2
  have ht := hcws ch hch
  rw [ht] at hchf
  exact Bool.noConfusion hchf

theorem chain'_le_range' (step : Nat) : ∀ (n s : Nat),
    List.Chain' (fun a b => a ≤ b) (List.range' s n step) := by
  intro n
  induction n with
  | zero => intro s; exact List.chain'_nil
  | succ n ih =>
    intro s
    rw [List.range'_succ, List.chain'_cons']
    refine ⟨?_, ih (s + step)⟩
    intro y hy
    cases n with
    | zero => simp at hy
    | succ m =>
      rw [List.range'_succ] at hy
      simp at hy
      omega

/-- Trimmed, filtered windows at pairwise-ordered starts occur at monotone
offsets. -/
theorem windows_ordered (text : List Char) (S : Nat) :
    ∀ starts : List Nat, List.Pairwise (fun a b => a ≤ b) starts →
    ∃ offs : List Nat, List.Chain' (fun a b => a ≤ b) offs ∧
      (∀ x ∈ offs, ∃ st ∈ starts,
        x = st + (((text.drop st).take S).takeWhile pyIsSpace).length ∧
        pyStrip ((text.drop st).take S) ≠ []) ∧
      List.Forall₂ (fun c off => occursAt text c off)
        ((starts.map (fun st => pyStrip ((text.drop st).take S))).filter
          (fun c => !c.isEmpty)) offs := by
  intro starts
  induction starts with
  | nil => exact fun _ => ⟨[], List.chain'_nil, by simp, by simp⟩
  | cons st rest ih =>
    intro hpw
    obtain ⟨hst, hpw2⟩ := List.pairwise_cons.1 hpw
    obtain ⟨offs, hchain, hcharac, hf2⟩ := ih hpw2
    rw [List.map_cons, List.filter_cons]
    by_cases hp : pyStrip ((text.drop st).take S) = []
    · rw [if_neg (by simp [hp])]
      refine ⟨offs, hchain, ?_, hf2⟩
      intro x hx
      obtain ⟨s2, hs2, hx1, hx2⟩ := hcharac x hx
      exact ⟨s2, List.mem_cons_of_mem _ hs2, hx1, hx2⟩
    · rw [if_pos (by simp [List.isEmpty_iff, hp])]
      refine ⟨(st + (((text.drop st).take S).takeWhile pyIsSpace).length) :: offs,
        ?_, ?_, ?_⟩
      · rw [List.chain'_cons']
        refine ⟨?_, hchain⟩
        intro y hy
        obtain ⟨s2, hs2, hy1, hy2⟩ := hcharac y (List.mem_of_mem_head? hy)
        rw [hy1]
        exact strip_offset_mono text S st s2 (hst s2 hs2) hp hy2
      · intro x hx
        rcases List.mem_cons.1 hx with h | h
        · exact ⟨st, List.mem_cons_self _ _, h, hp⟩
        · obtain ⟨s2, hs2, hx1, hx2⟩ := hcharac x h
          exact ⟨s2, List.mem_cons_of_mem _ hs2, hx1, hx2⟩
      · refine List.Forall₂.cons ?_ hf2
        have hoccw : occursAt text ((text.drop st).take S) st := by
          rw [occursAt, List.length_take, List.take_eq_take]
          omega
        exact occursAt_strip text _ st hoccw

/-- Claim C4: for each valid strategy (fixed with its defaults, sentence,
paragraph), the chunker returns a sequence (never null, no error): its
elements are non-empty and not whitespace-only even after further trimming,
the sequence preserves left-to-right textual order (the chunks occur in the
text at monotone offsets), and a whitespace-only input yields the empty
sequence rather than an error. -/
theorem claim_C4 : ∀ (text : List Char) (strategy : String),
    strategy = "fixed" ∨ strategy = "sentence" ∨ strategy = "paragraph" →
    ∃ chunks, chunk_text text strategy = .ok (some chunks) ∧
      (∀ c ∈ chunks, pyStrip c ≠ [] ∧ c ≠ []) ∧
      orderedOccs text chunks ∧
      ((∀ c ∈ text, pyIsSpace c = true) → chunks = []) := by
  intro text strategy hstrat
  rcases hstrat with h | h | h <;> subst h
  · -- fixed strategy with the default parameters 500 / 50
    have hfx : chunk_fixed_size text 500 50 = some (fixedWindowsSpec text 500 50) := by
      have h := chunk_fixed_size_spec text 500 50 (by norm_num)
      have e1 : ((500 : Nat) : Int) = (500 : Int) := by norm_num
      have e2 : ((50 : Nat) : Int) = (50 : Int) := by norm_num
      rwa [e1, e2] at h
    refine ⟨fixedWindowsSpec text 500 50, ?_, ?_, ?_, ?_⟩
    · rw [chunk_text, if_pos rfl, hfx]
    · intro c hc
      rw [fixedWindowsSpec] at hc
      have hkeep := List.of_mem_filter hc
      have hne : c ≠ [] := by simpa [List.isEmpty_iff] using hkeep
      obtain ⟨st, _, hmap⟩ := List.mem_map.1 (List.mem_of_mem_filter hc)
      refine ⟨?_, hne⟩
      rw [← hmap, pyStrip_idem, hmap]
      exact hne
    · obtain ⟨offs, hchain, _, hf2⟩ := windows_ordered text 500
        (List.range' 0 ((text.length + (500 - 50) - 1) / (500 - 50)) (500 - 50))
        ((List.chain'_iff_pairwise).1 (chain'_le_range' (500 - 50) _ 0))
      exact ⟨offs, hchain, hf2⟩
    · intro hws
      rw [fixedWindowsSpec]
      refine List.filter_eq_nil_iff.2 ?_
      intro a ha
      obtain ⟨st, _, hmap⟩ := List.mem_map.1 ha
      have hws2 : ∀ c ∈ (text.drop st).take 500, pyIsSpace c = true := by
        intro c hc
        exact hws c (List.mem_of_mem_drop (List.mem_of_mem_take hc))
      rw [← hmap, pyStrip_of_all_space _ hws2]
      simp
  · -- sentence strategy
    obtain ⟨p, tl, hgo, hjoin, _, _, _⟩ :=
      sentGo_spec text.length text [] le_rfl List.chain'_nil
    simp only [List.reverse_nil, List.nil_append] at hjoin
    have hsegs : SegsAt text 0 (p :: tl.map Prod.snd) := by
      have hs := join_segsAt text tl p [] (by simpa using hjoin)
      simpa using hs
    obtain ⟨offs, hchain, _, hf2⟩ := segs_ordered text hsegs
    refine ⟨chunk_by_sentences text, ?_, ?_, ?_, ?_⟩
    · rw [chunk_text, if_neg (by decide), if_pos rfl]
    · intro c hc
      rw [chunk_by_sentences] at hc
      exact strip_filter_elems _ c hc
    · refine ⟨offs, hchain, ?_⟩
      rw [chunk_by_sentences, hgo]
      exact hf2
    · intro hws
      rw [chunk_by_sentences, hgo]
      exact strip_filter_all_space _ (segs_all_space text hws hsegs)
  · -- paragraph strategy
    obtain ⟨p, tl, hgo, hjoin, _, _⟩ :=
      paraGo_spec text.length text [] le_rfl noPara_nil (Or.inl (by simp))
    simp only [List.reverse_nil, List.nil_append] at hjoin
    have hsegs : SegsAt text 0 (p :: tl.map Prod.snd) := by
      have hs := join_segsAt text tl p [] (by simpa using hjoin)
      simpa using hs
    obtain ⟨offs, hchain, _, hf2⟩ := segs_ordered text hsegs
    refine ⟨chunk_by_paragraphs text, ?_, ?_, ?_, ?_⟩
    · rw [chunk_text, if_neg (by decide), if_neg (by decide), if_pos rfl]
    · intro c hc
      rw [chunk_by_paragraphs] at hc
      exact strip_filter_elems _ c hc
    · refine ⟨offs, hchain, ?_⟩
      rw [chunk_by_paragraphs, hgo]
      exact hf2
    · intro hws
      rw [chunk_by_paragraphs, hgo]
      exact strip_filter_all_space _ (segs_all_space text hws hsegs)

/-- Claim C4 witness at a concrete text and strategy. -/
theorem claim_C4_witness :
    ("sentence" = "fixed" ∨ "sentence" = "sentence" ∨ "sentence" = "paragraph") ∧
    ∃ chunks, chunk_text "a. b".data "sentence" = .ok (some chunks) ∧
      (∀ c ∈ chunks, pyStrip c ≠ [] ∧ c ≠ []) ∧
      orderedOccs "a. b".data chunks ∧
      ((∀ c ∈ "a. b".data, pyIsSpace c = true) → chunks = []) :=
  ⟨Or.inr (Or.inl rfl), claim_C4 "a. b".data "sentence" (Or.inr (Or.inl rfl))⟩

end DocIndexer
